import Mathlib

/-!
Verification development for the air-price-tool repository (a browser-based
data-cleaning tool with an LLM extraction pipeline, a grid filter engine and
a price-match engine).  The TypeScript sources are shallowly embedded as
executable Lean definitions; theorems about those definitions settle the
claims of the specification.

Modelling conventions:
* JavaScript strings are Lean `String`s; the handful of platform string
  primitives the code uses (`trim`, `toUpperCase`, `indexOf`, `lastIndexOf`,
  `substring`, `replace(/…/g)`) are re-implemented below on `List Char` so
  that every definition evaluates by kernel reduction.
* `localeCompare` is modelled as code-point lexicographic comparison.
* JavaScript numbers are modelled as `Int` where the code only adds and
  subtracts; `JSON.parse` is modelled by an executable JSON parser that keeps
  numeric lexemes as strings (their numeric value is irrelevant here).
* `null`/`undefined` cell values are modelled as `Option.none`.
-/

namespace AirPriceTool

/-- Whitespace test used by the model of the JavaScript `trim` primitive. -/
def isJsWs (c : Char) : Bool :=
  c = ' ' || c = '\t' || c = '\n' || c = '\r'

/-- Drops leading and trailing JS whitespace from a character list. -/
def trimChars (cs : List Char) : List Char :=
  ((cs.dropWhile isJsWs).reverse.dropWhile isJsWs).reverse

/-- Model of the JavaScript `String.prototype.trim` primitive. -/
def jsTrim (s : String) : String :=
  ⟨trimChars s.data⟩

/-- Model of the JavaScript `String.prototype.toUpperCase` primitive
 (ASCII letters; other code points are left unchanged). -/
def jsUpper (s : String) : String :=
  ⟨s.data.map Char.toUpper⟩

/-- Code-point lexicographic order on character lists; the model of the
 JavaScript `localeCompare`-based tie-break (`localeCompare(a,b) ≤ 0`). -/
def lexLeb : List Char → List Char → Bool
  | [], _ => true
  | _ :: _, [] => false
  | a :: as, b :: bs => if a = b then lexLeb as bs else decide (a < b)

/-- The grid stores a row as a finite map from column name to cell value;
 `none` models a `null`/`undefined` cell. -/
def GRow : Type := String → Option String

/-- The sentinel token the grid substitutes for blank cells. -/
def blankToken : String := "(空白)"

/-- Normalisation applied by `DataGrid` to every cell before comparison:
 `null`/`undefined` and whitespace-only values become the blank sentinel,
 every other value is trimmed.  (DataGrid.tsx, repeated at
 `getUniqueStats` and inside `filteredData`.) -/
def normalizeCell (v : Option String) : String :=
  match v with
  | none => blankToken
  | some s => if jsTrim s = "" then blankToken else jsTrim s

/-- Step 1 of `filteredData`: a row passes the checkbox value filters when,
 for every column with an active restriction, the row's normalised value is
 among the allowed values.  (DataGrid.tsx `filteredData`, first filter.) -/
def matchesFilters (filters : List (String × List String)) (r : GRow) : Bool :=
  filters.all fun cf => (cf.2).contains (normalizeCell (r cf.1))

/-- After a row is kept by the unique-only pass, its normalised value is
 added to the seen-set of every enabled column. -/
def updateSeen (cols : List String) (r : GRow) (seen : String → List String) :
    String → List String :=
  fun c => if c ∈ cols then normalizeCell (r c) :: seen c else seen c

/-- Step 2 of `filteredData`: the unique-only (deduplication) pass.  Rows are
 scanned in order; a row is dropped as soon as any enabled column's
 normalised value has been seen, otherwise it is kept and all its values are
 recorded.  (DataGrid.tsx `filteredData`, second filter.) -/
def uniquePass (cols : List String) : List GRow → (String → List String) → List GRow
  | [], _ => []
  | r :: rs, seen =>
    if cols.any fun c => (seen c).contains (normalizeCell (r c)) then
      uniquePass cols rs seen
    else
      r :: uniquePass cols rs (updateSeen cols r seen)

/-- The grid filter engine (DataGrid.tsx `filteredData`): value filters
 first, then — when at least one column is in unique-only mode — the
 deduplication pass over the already-filtered rows. -/
def filteredData (data : List GRow) (filters : List (String × List String))
    (uniqueColumns : List String) : List GRow :=
  let result := data.filter (matchesFilters filters)
  if uniqueColumns.isEmpty then result
  else uniquePass uniqueColumns result (fun _ => [])

/-- One step of the occurrence-count accumulation of `getUniqueStats`:
 bump the count of `v`, appending a fresh entry on first sight (models the
 insertion-ordered `Map` the code builds). -/
def bump : List (String × Nat) → String → List (String × Nat)
  | [], v => [(v, 1)]
  | e :: rest, v => if e.1 = v then (e.1, e.2 + 1) :: rest else e :: bump rest v

/-- The normalised value of row `r` in column `col`. -/
def normCol (col : String) (r : GRow) : String :=
  normalizeCell (r col)

/-- The (value → occurrence count) table of a column over the full dataset,
 in first-occurrence order (DataGrid.tsx `getUniqueStats`, accumulation
 phase). -/
def columnCounts (data : List GRow) (col : String) : List (String × Nat) :=
  (data.map (normCol col)).foldl bump []

/-- The order realised by the `getUniqueStats` comparator: primarily by
 descending count; among equal counts the blank sentinel goes last and other
 values compare lexicographically.  The reflexive escape `a = b` only pads
 the diagonal (the comparator is never consulted on identical entries since
 keys are distinct). -/
def statsLe (a b : String × Nat) : Prop :=
  a = b ∨ b.2 < a.2 ∨
    (a.2 = b.2 ∧ a.1 ≠ blankToken ∧ (b.1 = blankToken ∨ lexLeb a.1.data b.1.data = true))

instance : DecidableRel statsLe := fun a b => by
  unfold statsLe
  infer_instance

/-- The column statistics shown in a filter menu (DataGrid.tsx
 `getUniqueStats`): occurrence counts over the full dataset, sorted by the
 comparator modelled by `statsLe`.  `Array.prototype.sort` is modelled by
 insertion sort (the comparator is antisymmetric on the distinct keys, so
 every sort realises the same list). -/
def getUniqueStats (data : List GRow) (col : String) : List (String × Nat) :=
  (columnCounts data col).insertionSort statsLe

/-! JSON values and a model of the platform `JSON.parse` primitive, needed by
 the response-recovery routine `safeJsonParse` of openRouterService.ts. -/

/-- JSON values.  Numbers keep their source lexeme: the service code never
 inspects a number's value, only the shape of the parsed tree. -/
inductive JVal where
  | jnull : JVal
  | jbool : Bool → JVal
  | jnum : String → JVal
  | jstr : String → JVal
  | jarr : List JVal → JVal
  | jobj : List (String × JVal) → JVal

/-- The opening-brace character, written via its code point. -/
def lbraceC : Char := Char.ofNat 123

/-- The closing-brace character, written via its code point. -/
def rbraceC : Char := Char.ofNat 125

/-- JSON insignificant whitespace. -/
def skipWs (cs : List Char) : List Char :=
  cs.dropWhile isJsWs

/-- Parses the body of a JSON string after the opening quote, returning the
 decoded characters and the rest of the input after the closing quote.
 Escapes are limited to the single-character ones (no \u escapes). -/
def parseStrBody : List Char → Option (List Char × List Char)
  | [] => none
  | '"' :: rest => some ([], rest)
  | '\\' :: e :: rest =>
    let dec : Option Char :=
      if e = '"' ∨ e = '\\' ∨ e = '/' then some e
      else if e = 'n' then some '\n'
      else if e = 't' then some '\t'
      else if e = 'r' then some '\r'
      else none
    match dec with
    | none => none
    | some d =>
      match parseStrBody rest with
      | none => none
      | some (s, r) => some (d :: s, r)
  | c :: rest =>
    if c = '\\' then none
    else
      match parseStrBody rest with
      | none => none
      | some (s, r) => some (c :: s, r)

/-- Accepts a JSON number lexeme (sign, digits, fraction, exponent) and
 returns it together with the rest of the input. -/
def parseNumLex (cs : List Char) : Option (List Char × List Char) :=
  let (sign, r1) :=
    match cs with
    | '-' :: r => ([('-' : Char)], r)
    | _ => ([], cs)
  let intPart := r1.takeWhile Char.isDigit
  let r2 := r1.dropWhile Char.isDigit
  if intPart = [] then none
  else
    let (frac, r3) :=
      match r2 with
      | '.' :: r =>
        let ds := r.takeWhile Char.isDigit
        if ds = [] then ([], r2) else (('.' : Char) :: ds, r.dropWhile Char.isDigit)
      | _ => ([], r2)
    let (expPart, r4) :=
      match r3 with
      | 'e' :: r =>
        let (es, r') :=
          match r with
          | '+' :: r'' => ([('e' : Char), '+'], r'')
          | '-' :: r'' => ([('e' : Char), '-'], r'')
          | _ => ([('e' : Char)], r)
        let ds := r'.takeWhile Char.isDigit
        if ds = [] then ([], r3) else (es ++ ds, r'.dropWhile Char.isDigit)
      | 'E' :: r =>
        let (es, r') :=
          match r with
          | '+' :: r'' => ([('E' : Char), '+'], r'')
          | '-' :: r'' => ([('E' : Char), '-'], r'')
          | _ => ([('E' : Char)], r)
        let ds := r'.takeWhile Char.isDigit
        if ds = [] then ([], r3) else (es ++ ds, r'.dropWhile Char.isDigit)
      | _ => ([], r3)
    some (sign ++ intPart ++ frac ++ expPart, r4)

/-- Intermediate results of the JSON parser: a single value, the members of
 an object, or the items of an array. -/
inductive PRes where
  | val : JVal → PRes
  | fields : List (String × JVal) → PRes
  | items : List JVal → PRes

/-- Fuel-bounded JSON parser.  `mode = 0` parses one value, `mode = 1`
 parses the member list of an object after its opening brace (non-empty
 case), `mode = 2` parses the item list of an array after `[`.  The fuel is
 structural so that the parser evaluates by kernel reduction. -/
def parseCore : Nat → Nat → List Char → Option (PRes × List Char)
  | 0, _, _ => none
  | fuel + 1, 0, cs =>
    let t := skipWs cs
    if ['n', 'u', 'l', 'l'].isPrefixOf t then some (.val .jnull, t.drop 4)
    else if ['t', 'r', 'u', 'e'].isPrefixOf t then some (.val (.jbool true), t.drop 4)
    else if ['f', 'a', 'l', 's', 'e'].isPrefixOf t then some (.val (.jbool false), t.drop 5)
    else
      match t with
      | [] => none
      | c :: rest =>
        if c = '"' then
          match parseStrBody rest with
          | some (s, r) => some (.val (.jstr ⟨s⟩), r)
          | none => none
        else if c = lbraceC then
          match skipWs rest with
          | c2 :: r2 =>
            if c2 = rbraceC then some (.val (.jobj []), r2)
            else
              match parseCore fuel 1 rest with
              | some (.fields fs, r) => some (.val (.jobj fs), r)
              | _ => none
          | [] => none
        else if c = '[' then
          match skipWs rest with
          | c2 :: r2 =>
            if c2 = ']' then some (.val (.jarr []), r2)
            else
              match parseCore fuel 2 rest with
              | some (.items vs, r) => some (.val (.jarr vs), r)
              | _ => none
          | [] => none
        else
          match parseNumLex t with
          | some (lex, r) => some (.val (.jnum ⟨lex⟩), r)
          | none => none
  | fuel + 1, 1, cs =>
    match skipWs cs with
    | c :: rest =>
      if c = '"' then
        match parseStrBody rest with
        | some (key, r1) =>
          match skipWs r1 with
          | ':' :: r2 =>
            match parseCore fuel 0 r2 with
            | some (.val v, r3) =>
              match skipWs r3 with
              | c2 :: r4 =>
                if c2 = ',' then
                  match parseCore fuel 1 r4 with
                  | some (.fields fs, r5) => some (.fields ((⟨key⟩, v) :: fs), r5)
                  | _ => none
                else if c2 = rbraceC then some (.fields [(⟨key⟩, v)], r4)
                else none
              | [] => none
            | _ => none
          | _ => none
        | none => none
      else none
    | [] => none
  | fuel + 1, _, cs =>
    match parseCore fuel 0 cs with
    | some (.val v, r1) =>
      match skipWs r1 with
      | c :: r2 =>
        if c = ',' then
          match parseCore fuel 2 r2 with
          | some (.items vs, r3) => some (.items (v :: vs), r3)
          | _ => none
        else if c = ']' then some (.items [v], r2)
        else none
      | [] => none
    | _ => none

/-- Model of the platform `JSON.parse` primitive: parse one value and reject
 trailing garbage; `none` models a thrown `SyntaxError`. -/
def jsonParse (s : String) : Option JVal :=
  match parseCore (2 * s.data.length + 2) 0 s.data with
  | some (.val v, rest) => if skipWs rest = [] then some v else none
  | _ => none

/-- The `ApiError` class of openRouterService.ts: a message plus an optional
 raw-response payload for diagnostics. -/
structure ApiErr where
  message : String
  rawResponse : Option String
deriving DecidableEq

/-- Prefix match of a pattern against the input, case-insensitively when
 `ci` is set. -/
def matchesAt (ci : Bool) : List Char → List Char → Bool
  | [], _ => true
  | _ :: _, [] => false
  | p :: ps, d :: ds =>
    (if ci then p.toLower = d.toLower else p = d) && matchesAt ci ps ds

/-- Fuel-bounded worker for `replaceAllG`; the fuel is the input length, so
 the zero-fuel branch is unreachable. -/
def replaceAllGo (ci : Bool) (pat : List Char) : Nat → List Char → List Char
  | 0, cs => cs
  | _ + 1, [] => []
  | fuel + 1, c :: rest =>
    if pat ≠ [] ∧ matchesAt ci pat (c :: rest) then
      replaceAllGo ci pat fuel ((c :: rest).drop pat.length)
    else
      c :: replaceAllGo ci pat fuel rest

/-- Removes every (left-to-right, non-overlapping) occurrence of `pat` from
 `cs`; when `ci` is set the match is case-insensitive.  Models
 `String.prototype.replace` with a `/…/g` or `/…/gi` literal pattern and an
 empty replacement. -/
def replaceAllG (ci : Bool) (pat : List Char) (cs : List Char) : List Char :=
  replaceAllGo ci pat cs.length cs

/-- Index of the first occurrence of `c`, or `none`; models
 `String.prototype.indexOf` under a found-check. -/
def idxOfChar (c : Char) (cs : List Char) : Option Nat :=
  match cs with
  | [] => none
  | d :: rest => if d = c then some 0 else (idxOfChar c rest).map (· + 1)

/-- Index of the last occurrence of `c`, or `none`; models
 `String.prototype.lastIndexOf` under a found-check. -/
def lastIdxOfChar (c : Char) (cs : List Char) : Option Nat :=
  match cs with
  | [] => none
  | d :: rest =>
    match lastIdxOfChar c rest with
    | some i => some (i + 1)
    | none => if d = c then some 0 else none

/-- Model of `String.prototype.substring` (clamps and swaps its bounds). -/
def jsSubstring (cs : List Char) (a b : Nat) : List Char :=
  (cs.take (max a b)).drop (min a b)

/-- The markdown-stripping and brace-slicing recovery of `safeJsonParse`:
 remove all occurrences of the json code-fence opener (case-insensitively)
 and of the bare fence, trim, and-if both a first opening brace and a last
 closing brace exist-slice from the first `\x7b` to the last `\x7d`
 (openRouterService.ts `safeJsonParse`, fallback branch). -/
def recoverText (raw : String) : String :=
  let noFence := replaceAllG false ("```".data) (replaceAllG true ("```json".data) raw.data)
  let clean := trimChars noFence
  match idxOfChar lbraceC clean, lastIdxOfChar rbraceC clean with
  | some f, some l => ⟨jsSubstring clean f (l + 1)⟩
  | _, _ => ⟨clean⟩

/-- The robust response parser of openRouterService.ts (`safeJsonParse`):
 parse as-is; on failure strip markdown fences and slice between the outer
 braces and parse again; on a second failure throw an `ApiError` carrying
 the original raw text. -/
def safeJsonParse (rawText : String) : Except ApiErr JVal :=
  match jsonParse rawText with
  | some v => .ok v
  | none =>
    match jsonParse (recoverText rawText) with
    | some v => .ok v
    | none => .error ⟨"JSON Parse Failed", some rawText⟩

/-- Property access on a parsed JSON object: `JSON.parse` keeps the last
 duplicate key, so lookup is from the right. -/
def jsonLookup (fs : List (String × JVal)) (k : String) : Option JVal :=
  fs.reverse.lookup k

/-- The shape check of `extractProfilesFromText` after parsing:
 `parsedObj && Array.isArray(parsedObj.profiles)`. -/
def hasProfilesArray (v : JVal) : Bool :=
  match v with
  | .jobj fs =>
    match jsonLookup fs "profiles" with
    | some (.jarr _) => true
    | _ => false
  | _ => false

/-- The profiles extracted from a parsed response value: the `profiles`
 array when the value is an object carrying one, the empty list otherwise
 (openRouterService.ts `extractProfilesFromText`, lines 381–388). -/
def profilesOf (v : JVal) : List JVal :=
  match v with
  | .jobj fs =>
    match jsonLookup fs "profiles" with
    | some (.jarr ps) => ps
    | _ => []
  | _ => []

/-- The tail of `extractProfilesFromText` on an HTTP-success response, from
 the extracted content string onward: reject empty content, run the robust
 parser, and return the `profiles` array or the empty list. -/
def processExtractContent (contentStr : String) : Except ApiErr (List JVal) :=
  if contentStr = "" then .error ⟨"API Response Content is Empty", none⟩
  else
    match safeJsonParse contentStr with
    | .error e => .error e
    | .ok v => .ok (profilesOf v)

/-! The cleaner data model (types.ts / App.tsx) and the deduplicating
 importer of CleaningPanel.tsx. -/

/-- A profile record extracted by the model, with the fixed field set of the
 extraction schema (all strings, empty string for "not found"). -/
structure Profile where
  username : String
  douyinId : String
  fans : String
  bio : String
  contact : String
deriving DecidableEq

/-- Per-row verification state of the relevance-cleaning variant. -/
inductive VStatus where
  | unverified : VStatus
  | verified : VStatus
deriving DecidableEq

/-- A cleaner-table row: the five profile fields plus the verification
 state.  The fresh `_internal_id` assigned on admission
 (`Date.now() + Math.random()`) is an external source of nondeterminism and
 is not part of this model; claim C3/C8 use the separate `VRow` type whose
 rows do carry ids. -/
structure CRow where
  checkStatus : VStatus
  username : String
  douyinId : String
  fans : String
  bio : String
  contact : String
deriving DecidableEq

/-- The row object pushed for an admitted profile
 (CleaningPanel.tsx `handleInitialCleaning`, else-branch). -/
def mkRow (p : Profile) : CRow :=
  ⟨.unverified, p.username, p.douyinId, p.fans, p.bio, p.contact⟩

/-- The trimmed natural key of a table row (`String(r.抖音号 || "").trim()`). -/
def rowKey (r : CRow) : String :=
  jsTrim r.douyinId

/-- The trimmed natural key of an incoming record
 (`String(p.douyinId || "").trim()`). -/
def profileKey (p : Profile) : String :=
  jsTrim p.douyinId

/-- The dedup loop of `handleInitialCleaning`: `ids` is the current content
 of the `existingIds` set.  A record whose trimmed key is non-empty and
 already in the set bumps the duplicate counter; otherwise the record is
 admitted and its key (when non-empty) is added to the set. -/
def dedupGo (ids : List String) : List Profile → List CRow × Nat
  | [] => ([], 0)
  | p :: ps =>
    if profileKey p ≠ "" ∧ ids.contains (profileKey p) then
      let r := dedupGo ids ps
      (r.1, r.2 + 1)
    else
      let ids' := if profileKey p ≠ "" then profileKey p :: ids else ids
      let r := dedupGo ids' ps
      (mkRow p :: r.1, r.2)

/-- The `existingIds` set after the loop has processed `ps`
 (same recursion as `dedupGo`, tracking only the key set). -/
def dedupState (ids : List String) : List Profile → List String
  | [] => ids
  | p :: ps =>
    if profileKey p ≠ "" ∧ ids.contains (profileKey p) then dedupState ids ps
    else dedupState (if profileKey p ≠ "" then profileKey p :: ids else ids) ps

/-- The dedup phase of CleaningPanel.tsx `handleInitialCleaning`: seed the
 seen-set with the trimmed keys of all current rows, then fold over the
 extracted batch, returning the admitted rows and the rejected-duplicate
 count. -/
def handleInitialCleaning (currentRows : List CRow) (parsedData : List Profile) :
    List CRow × Nat :=
  dedupGo (currentRows.map rowKey) parsedData

/-! The relevance-filter application (CleaningPanel.tsx
 `handleRelevanceCleaning` composed with the App.tsx table handlers) and
 the cell-edit handler. -/

/-- A row as addressed by the App-level handlers: internal id, verification
 state, and the remaining cells as a map from column name to value. -/
structure VRow where
  _internal_id : Nat
  checkStatus : VStatus
  cells : String → String

/-- App.tsx `handleRemoveRows`: drop every row whose internal id is in the
 removal set. -/
def handleRemoveRows (rows : List VRow) (idsToRemove : List Nat) : List VRow :=
  rows.filter fun r => !(idsToRemove.contains r._internal_id)

/-- App.tsx `handleUpdateStatus`: set the verification state of every row
 whose internal id is in the id set; all other rows unchanged. -/
def handleUpdateStatus (rows : List VRow) (ids : List Nat) (st : VStatus) : List VRow :=
  rows.map fun r =>
    if ids.contains r._internal_id then { r with checkStatus := st } else r

/-- Table effect of one relevance-filter pass (CleaningPanel.tsx
 `handleRelevanceCleaning`) once the remote call has produced
 `idsToRemove`: when the checked batch (the currently unverified rows) is
 empty the handler returns early and the table is untouched
 (CleaningPanel.tsx lines 96-99); otherwise the listed rows are removed and
 the batch survivors are marked verified.  The code skips the two App calls
 when their argument lists are empty; both are identities in that case, so
 the model applies them unconditionally. -/
def handleRelevanceCleaning (rows : List VRow) (idsToRemove : List Nat) : List VRow :=
  let rowsToCheck := rows.filter fun r => r.checkStatus ≠ VStatus.verified
  if rowsToCheck.isEmpty then rows
  else
    let survivorIds :=
      (rowsToCheck.filter fun r => !(idsToRemove.contains r._internal_id)).map
        VRow._internal_id
    handleUpdateStatus (handleRemoveRows rows idsToRemove) survivorIds VStatus.verified

/-- The columns whose edit resets a row's verification state
 (App.tsx `handleCellEdit`: `column === '用户名' || column === '简介'`). -/
def isSignificantColumn (column : String) : Prop :=
  column = "用户名" ∨ column = "简介"

instance (column : String) : Decidable (isSignificantColumn column) := by
  unfold isSignificantColumn
  infer_instance

/-- App.tsx `handleCellEdit`: write `value` into `column` of the row whose
 internal id is `rowId`; when the column is significant the row drops back
 to unverified. -/
def handleCellEdit (rows : List VRow) (rowId : Nat) (column : String) (value : String) :
    List VRow :=
  rows.map fun r =>
    if r._internal_id = rowId then
      let updated : VRow :=
        { r with cells := fun c => if c = column then value else r.cells c }
      if isSignificantColumn column then { updated with checkStatus := .unverified }
      else updated
    else r

/-! The price-match/adjustment engine (PriceUpdater.tsx `generatePreviews`).
 JavaScript numbers are modelled as `Int`: the engine only adds and
 subtracts, which the embedding represents exactly. -/

/-- A scalar cell or OCR price value: a number or a string. -/
inductive PVal where
  | pnum : Int → PVal
  | pstr : String → PVal
deriving DecidableEq

/-- The five weight tiers of the rate sheet. -/
inductive Tier where
  | t45 | t100 | t300 | t500 | t1000
deriving DecidableEq, Fintype

/-- The tiers in the order `generatePreviews` processes them. -/
def tierList : List Tier :=
  [.t45, .t100, .t300, .t500, .t1000]

/-- One OCR-extracted record: a list of port codes fanned out onto a common
 price set (`prices[tier]` may be absent). -/
structure PortRecord where
  ports : List String
  prices : Tier → Option PVal

/-- Adjustment mode of a tier rule (`'default' | 'add' | 'subtract'`). -/
inductive AdjMode where
  | default | add | subtract
deriving DecidableEq

/-- A per-tier adjustment rule. -/
structure AdjRule where
  mode : AdjMode
  value : Int
deriving DecidableEq

/-- The column-mapping and adjustment configuration: which column holds the
 match key, which column (if any, `""` = unmapped) receives each tier, and
 each tier's adjustment rule. -/
structure PriceCfg where
  portCol : String
  mapping : Tier → String
  rules : Tier → AdjRule

/-- A sheet row: an optional numeric internal id and the cells. -/
structure SheetRow where
  idOpt : Option Nat
  cells : String → Option PVal

/-- A proposed per-row update entry (the `PriceUpdatePreview` fields the
 engine computes; the presentational `oldP45`/`newP45`/`isMatch` fields are
 omitted). -/
structure Preview where
  rowId : Nat
  rowIndex : Nat
  port : String
  updates : List (String × Int)
deriving DecidableEq

/-- Digit-string parser for the model of the `Number` coercion. -/
def digitsToNat? (cs : List Char) : Option Nat :=
  if cs ≠ [] ∧ cs.all Char.isDigit then
    some (cs.foldl (fun n c => 10 * n + (c.toNat - 48)) 0)
  else none

/-- Model of the JavaScript `Number(string)` coercion, restricted to
 integer literals: trimmed empty input is 0, an optionally signed run of
 digits is its value, anything else is NaN (`none`).  (Fractional and
 exponent forms are outside the model; the OCR prices reach the engine as
 JSON numbers, not strings.) -/
def jsStrToNum (s : String) : Option Int :=
  let t := trimChars s.data
  if t = [] then some 0
  else
    match t with
    | '-' :: rest => (digitsToNat? rest).map fun n => -(n : Int)
    | '+' :: rest => (digitsToNat? rest).map fun n => (n : Int)
    | _ => (digitsToNat? t).map fun n => (n : Int)

/-- Model of `Number(val)` on a scalar: numbers are themselves, strings are
 coerced per `jsStrToNum` (`none` = NaN). -/
def jsToNumber (v : PVal) : Option Int :=
  match v with
  | .pnum n => some n
  | .pstr s => jsStrToNum s

/-- `String(val)` on a scalar cell value. -/
def pvToString (v : PVal) : String :=
  match v with
  | .pnum n => ⟨Int.repr n |>.data⟩
  | .pstr s => s

/-- Match-key normalisation (`trim().toUpperCase()`), applied on both sides
 of the lookup. -/
def normKey (s : String) : String :=
  jsUpper (jsTrim s)

/-- The `calculatePrice` closure of `generatePreviews`: `none` models its
 empty-string result (tier skipped).  A present, non-empty, numeric value is
 adjusted according to the rule. -/
def calculatePrice (prices : Tier → Option PVal) (t : Tier) (rule : AdjRule) :
    Option Int :=
  match prices t with
  | none => none
  | some v =>
    if v = .pstr "" then none
    else
      match jsToNumber v with
      | none => none
      | some num =>
        some
          (match rule.mode with
           | .default => num
           | .add => num + rule.value
           | .subtract => num - rule.value)

/-- JavaScript-object insertion: assigning to an existing key updates it in
 place, a fresh key is appended. -/
def objInsert (k : String) (v : α) : List (String × α) → List (String × α)
  | [] => [(k, v)]
  | e :: rest => if e.1 = k then (k, v) :: rest else e :: objInsert k v rest

/-- The `priceMap` accumulation of `generatePreviews`: every port code of
 every record is normalised and mapped to that record's price set (later
 records overwrite earlier ones for the same code). -/
def buildPriceMap (apiData : List PortRecord) : List (String × (Tier → Option PVal)) :=
  apiData.foldl
    (fun m item => item.ports.foldl (fun m' port => objInsert (normKey port) item.prices m') m)
    []

/-- All normalised extracted port codes, in fan-out order. -/
def extractedCodes (apiData : List PortRecord) : List String :=
  apiData.flatMap fun item => item.ports.map normKey

/-- The `updates` object accumulated over the mapped tiers: a tier with a
 mapped column and a concrete calculated price is written into the object. -/
def updatesCode (cfg : PriceCfg) (prices : Tier → Option PVal) :
    List Tier → List (String × Int) → List (String × Int)
  | [], u => u
  | t :: ts, u =>
    updatesCode cfg prices ts
      (if cfg.mapping t = "" then u
       else
         match calculatePrice prices t (cfg.rules t) with
         | none => u
         | some x => objInsert (cfg.mapping t) x u)

/-- `row._internal_id || index`: a missing or zero (falsy) id falls back to
 the row index. -/
def previewRowId (row : SheetRow) (index : Nat) : Nat :=
  match row.idOpt with
  | some n => if n = 0 then index else n
  | none => index

/-- The per-row body of `generatePreviews`: skip rows whose key cell is
 absent or the empty string, normalise the key, look it up in the price
 map, accumulate the mapped-tier updates, and emit a preview entry when at
 least one update was produced. -/
def previewRow (pm : List (String × (Tier → Option PVal))) (cfg : PriceCfg)
    (index : Nat) (row : SheetRow) : Option Preview :=
  match row.cells cfg.portCol with
  | none => none
  | some rawPort =>
    if rawPort = .pstr "" then none
    else
      let portKey := normKey (pvToString rawPort)
      match pm.lookup portKey with
      | none => none
      | some prices =>
        let updates := updatesCode cfg prices tierList []
        if updates = [] then none
        else some ⟨previewRowId row index, index + 1, portKey, updates⟩

/-- PriceUpdater.tsx `generatePreviews`: build the price map from the OCR
 records, then scan the table rows in order, emitting a preview entry per
 matched row with at least one concrete tier update. -/
def generatePreviews (apiData : List PortRecord) (cfg : PriceCfg)
    (currentData : List SheetRow) : List Preview :=
  currentData.enum.filterMap fun ir => previewRow (buildPriceMap apiData) cfg ir.1 ir.2

/-- The tier updates as the specification words them: every tier with a
 mapped column, a present extracted value, and a numeric extracted value
 contributes its adjusted value under that tier's rule. -/
def updatesSpec (cfg : PriceCfg) (prices : Tier → Option PVal) (ts : List Tier) :
    List (String × Int) :=
  ts.filterMap fun t =>
    if cfg.mapping t = "" then none
    else (calculatePrice prices t (cfg.rules t)).map fun x => (cfg.mapping t, x)

/-- The per-row preview as the claim words it, amended with the key-cell
 presence guard the code applies (a row whose key cell is `null`/`undefined`
 or exactly the empty string is skipped before matching). -/
def specPreviewRow (apiData : List PortRecord) (cfg : PriceCfg)
    (index : Nat) (row : SheetRow) : Option Preview :=
  match row.cells cfg.portCol with
  | none => none
  | some rawPort =>
    if rawPort = .pstr "" then none
    else
      let portKey := normKey (pvToString rawPort)
      match (buildPriceMap apiData).lookup portKey with
      | none => none
      | some prices =>
        let updates := updatesSpec cfg prices tierList
        if updates = [] then none
        else some ⟨previewRowId row index, index + 1, portKey, updates⟩

/-- The per-row preview exactly as the claim words it, without the key-cell
 presence guard: used to exhibit the divergence on rows whose key cell is
 the empty string. -/
def specPreviewRowUnguarded (apiData : List PortRecord) (cfg : PriceCfg)
    (index : Nat) (row : SheetRow) : Option Preview :=
  let rawPort := (row.cells cfg.portCol).getD (.pstr "")
  let portKey := normKey (pvToString rawPort)
  match (buildPriceMap apiData).lookup portKey with
  | none => none
  | some prices =>
    let updates := updatesSpec cfg prices tierList
    if updates = [] then none
    else some ⟨previewRowId row index, index + 1, portKey, updates⟩

/-! The chunked extraction pipeline.  The chunking variant of
 `extractProfilesFromText` is not part of the source snapshot (only its
 caller in DataGrid.tsx, which reports "500 lines per batch" progress, is);
 the two definitions below are therefore modelled from the specification. -/

/-- Modelled from the spec: the chunking loop of the long-text extraction
 pipeline (§4.1 Chunker), absent from the source snapshot.  Chunk `i`
 starts at line `i × (chunkSize − overlap)` and spans `chunkSize` lines (or
 fewer at the tail); the loop stops as soon as a chunk's computed end
 reaches the last line.  The fuel argument (instantiated with
 `lines.length + 1`, sufficient whenever `overlap < chunkSize`) keeps the
 recursion structural. -/
def chunksGo (chunkSize overlap : Nat) (lines : List String) : Nat → Nat → List (List String)
  | _, 0 => []
  | start, fuel + 1 =>
    let chunk := (lines.drop start).take chunkSize
    if lines.length ≤ start + chunkSize then [chunk]
    else chunk :: chunksGo chunkSize overlap lines (start + (chunkSize - overlap)) fuel

/-- Modelled from the spec: the chunker entry point on a text already split
 into lines. -/
def chunkText (chunkSize overlap : Nat) (lines : List String) : List (List String) :=
  chunksGo chunkSize overlap lines 0 (lines.length + 1)

/-- A chunk that is empty or whitespace-only, dropped before emission
 (spec §4.1). -/
def isBlankChunk (chunk : List String) : Bool :=
  chunk.all fun line => jsTrim line = ""

/-- Modelled from the spec: the chunks actually emitted to the extraction
 adapter, after dropping blank chunks. -/
def emittedChunks (chunkSize overlap : Nat) (lines : List String) : List (List String) :=
  (chunkText chunkSize overlap lines).filter fun c => !(isBlankChunk c)

/-- The result of one chunk's remote call. -/
def chunkResultToOption (r : Except ApiErr (List Profile)) : Option (List Profile) :=
  match r with
  | .ok ps => some ps
  | .error _ => none

/-- Modelled from the spec: the accumulation loop of the chunked extraction
 pipeline (§4.2) - each chunk's outcome is inspected in order; a failed
 chunk is logged and skipped, a successful chunk appends its records. -/
def runChunks : List (Except ApiErr (List Profile)) → List Profile
  | [] => []
  | .ok ps :: rest => ps ++ runChunks rest
  | .error _ :: rest => runChunks rest

/-- Modelled from the spec: the whole chunked extraction run - chunk the
 input, issue one call per chunk (`call` is the remote capability), and
 accumulate the successful chunks' records. -/
def extractOverChunks (chunkSize overlap : Nat) (lines : List String)
    (call : List String → Except ApiErr (List Profile)) : List Profile :=
  runChunks ((emittedChunks chunkSize overlap lines).map call)

/-- Test fixture: an OCR record whose single port code is whitespace-only
 (normalising to the empty string) with a numeric +45 price. -/
def c9Api : List PortRecord :=
  [⟨[" "], fun t => if t = .t45 then some (.pnum 5) else none⟩]

/-- Test fixture: key column `"P"`, only the +45 tier mapped, all rules
 `add 0`. -/
def c9Cfg : PriceCfg :=
  ⟨"P", fun t => if t = .t45 then "C45" else "", fun _ => ⟨.add, 0⟩⟩

/-- Test fixture: a row whose key cell is exactly the empty string. -/
def c9Row : SheetRow :=
  ⟨none, fun c => if c = "P" then some (.pstr "") else none⟩

/-- Test fixture: an OCR record for port `svo` with a numeric +45 price. -/
def w9Api : List PortRecord :=
  [⟨["svo"], fun t => if t = .t45 then some (.pnum 40) else none⟩]

/-- Test fixture: key column `"Port"`, only the +45 tier mapped to `"C45"`,
 +45 rule `add 2`. -/
def w9Cfg : PriceCfg :=
  ⟨"Port", fun t => if t = .t45 then "C45" else "",
    fun t => if t = .t45 then ⟨.add, 2⟩ else ⟨.default, 0⟩⟩

/-- Test fixture: a row keyed `" SVO "` (matching after trim+uppercase). -/
def w9Row : SheetRow :=
  ⟨some 7, fun c => if c = "Port" then some (.pstr " SVO ") else none⟩

/-- Test fixture: a one-row table whose natural key is `"a"`. -/
def c2Table : List CRow :=
  [mkRow ⟨"u", "a", "", "", ""⟩]

/-- Test fixture: a batch with a table duplicate (`"a"`), a fresh key
 (`"b"`), an intra-batch duplicate (`"b "` trimming to `"b"`), and an
 empty key. -/
def c2Batch : List Profile :=
  [⟨"p1", "a", "", "", ""⟩, ⟨"p2", "b", "", "", ""⟩, ⟨"p3", "b ", "", "", ""⟩,
    ⟨"p4", " ", "", "", ""⟩]

/-- Count read out of an association list, defaulting to zero. -/
def lkD (l : List (String × Nat)) (v : String) : Nat :=
  (l.lookup v).getD 0

/-!
Theorems.  Each claim of the specification is settled by one theorem below
(plus, where needed, a concrete counterexample and a witness instance);
the auxiliary lemmas come first.
-/

/-- The unique-only pass only ever removes rows. -/
theorem uniquePass_sublist (cols : List String) :
    ∀ (rs : List GRow) (seen : String → List String),
      (uniquePass cols rs seen).Sublist rs := by
  intro rs
  induction rs with
  | nil => intro seen; exact List.Sublist.refl _
  | cons r0 rs ih =>
    intro seen
    rw [uniquePass]
    split
    · exact (ih seen).trans (List.sublist_cons_self r0 rs)
    · exact (ih _).cons₂ r0

/-- Every row surviving the unique-only pass has, in each enabled column, a
 normalised value that was not in the incoming seen-set. -/
theorem uniquePass_not_seen (cols : List String) :
    ∀ (rs : List GRow) (seen : String → List String) (r : GRow),
      r ∈ uniquePass cols rs seen → ∀ c ∈ cols, normalizeCell (r c) ∉ seen c := by
  intro rs
  induction rs with
  | nil => intro seen r h; simp [uniquePass] at h
  | cons r0 rs ih =>
    intro seen r h c hc hmem
    rw [uniquePass] at h
    split at h
    case isTrue hdup => exact ih seen r h c hc hmem
    case isFalse hdup =>
      rcases List.mem_cons.mp h with rfl | h'
      · exact hdup (List.any_eq_true.mpr ⟨c, hc, List.elem_eq_true_of_mem hmem⟩)
      · apply ih _ r h' c hc
        unfold updateSeen
        simp only [if_pos hc]
        exact List.mem_cons_of_mem _ hmem

/-- No two rows surviving the unique-only pass agree, in any enabled column,
 on their normalised value. -/
theorem uniquePass_pairwise (cols : List String) :
    ∀ (rs : List GRow) (seen : String → List String),
      (uniquePass cols rs seen).Pairwise
        (fun a b => ∀ c ∈ cols, normalizeCell (a c) ≠ normalizeCell (b c)) := by
  intro rs
  induction rs with
  | nil => intro seen; simp [uniquePass]
  | cons r0 rs ih =>
    intro seen
    rw [uniquePass]
    split
    · exact ih seen
    · refine List.Pairwise.cons ?_ (ih _)
      intro b hb c hc heq
      apply uniquePass_not_seen cols rs _ b hb c hc
      unfold updateSeen
      simp only [if_pos hc]
      exact heq ▸ List.mem_cons_self _ _

/-- C1 (confirmed): for every table, value-restriction map and non-empty
 set of unique-only columns, the visible subset is a sublist of the backing
 store (rows are processed in backing-store order) and no two distinct
 surviving rows share a normalised value in any single unique-only
 column. -/
theorem filteredData_unique_invariant (data : List GRow)
    (filters : List (String × List String)) (uniqueColumns : List String)
    (hne : uniqueColumns ≠ []) :
    (filteredData data filters uniqueColumns).Sublist data ∧
      (filteredData data filters uniqueColumns).Pairwise
        (fun a b => ∀ c ∈ uniqueColumns, normalizeCell (a c) ≠ normalizeCell (b c)) := by
  unfold filteredData
  have hni : uniqueColumns.isEmpty = false := by
    cases uniqueColumns with
    | nil => exact absurd rfl hne
    | cons a l => rfl
  simp only [hni, Bool.false_eq_true, if_false]
  exact ⟨(uniquePass_sublist _ _ _).trans (List.filter_sublist data),
    uniquePass_pairwise _ _ _⟩

/-- Witness for C1 at a concrete three-row table with a duplicate key. -/
theorem filteredData_unique_invariant_witness :
    (["k"] ≠ ([] : List String)) ∧
      ((filteredData
          [fun _ => some "x", fun _ => some "x ", fun _ => some "y"] [] ["k"]).Sublist
          [fun _ => some "x", fun _ => some "x ", fun _ => some "y"] ∧
        (filteredData
          [fun _ => some "x", fun _ => some "x ", fun _ => some "y"] [] ["k"]).Pairwise
          (fun a b => ∀ c ∈ ["k"], normalizeCell (a c) ≠ normalizeCell (b c))) :=
  ⟨by decide, filteredData_unique_invariant _ _ _ (by decide)⟩

/-- Bumping key `w` increments its count and leaves every other count
 unchanged. -/
theorem bump_lkD (w v : String) :
    ∀ l : List (String × Nat),
      lkD (bump l w) v = if v = w then lkD l v + 1 else lkD l v := by
  intro l
  induction l with
  | nil =>
    by_cases h : v = w
    · subst h; simp [bump, lkD, List.lookup]
    · simp [bump, lkD, List.lookup, beq_false_of_ne h, h]
  | cons e rest ih =>
    by_cases hw : e.1 = w
    · subst hw
      by_cases hv : v = e.1
      · subst hv; simp [bump, lkD, List.lookup]
      · simp [bump, lkD, List.lookup, beq_false_of_ne hv, hv]
    · by_cases hv : v = e.1
      · subst hv
        simp [bump, Ne.symm hw, lkD, List.lookup, hw]
      · simp only [bump, if_neg hw]
        simp only [lkD, List.lookup, beq_false_of_ne hv] at ih ⊢
        exact ih

/-- The keys after a bump are the old keys plus possibly `w`. -/
theorem bump_keys_mem (w v : String) :
    ∀ l : List (String × Nat),
      (v ∈ (bump l w).map Prod.fst ↔ v ∈ l.map Prod.fst ∨ v = w) := by
  intro l
  induction l with
  | nil => simp [bump]
  | cons e rest ih =>
    by_cases hw : e.1 = w
    · subst hw; simp [bump]; tauto
    · simp only [bump, if_neg hw, List.map_cons, List.mem_cons, ih]
      tauto

/-- Bumping preserves distinctness of the keys. -/
theorem bump_keys_nodup (w : String) :
    ∀ l : List (String × Nat),
      (l.map Prod.fst).Nodup → ((bump l w).map Prod.fst).Nodup := by
  intro l
  induction l with
  | nil => intro _; simp [bump]
  | cons e rest ih =>
    intro h
    rcases List.nodup_cons.mp h with ⟨he, hrest⟩
    by_cases hw : e.1 = w
    · subst hw; simpa [bump] using h
    · simp only [bump, if_neg hw, List.map_cons]
      refine List.nodup_cons.mpr ⟨?_, ih hrest⟩
      intro hmem
      rcases (bump_keys_mem w e.1 rest).mp hmem with h' | h'
      · exact he h'
      · exact hw h'

/-- Folding `bump` over a value list adds each value's multiplicity to its
 count. -/
theorem foldl_bump_lkD (v : String) :
    ∀ (vals : List String) (acc : List (String × Nat)),
      lkD (vals.foldl bump acc) v = lkD acc v + vals.count v := by
  intro vals
  induction vals with
  | nil => intro acc; simp
  | cons w vals ih =>
    intro acc
    rw [List.foldl_cons, ih, bump_lkD, List.count_cons]
    by_cases h : v = w
    · simp only [if_pos h, h, beq_self_eq_true, if_pos]
      omega
    · simp [h, beq_false_of_ne h, Ne.symm h]

/-- The keys after the fold are exactly the values seen. -/
theorem foldl_bump_keys (v : String) :
    ∀ (vals : List String) (acc : List (String × Nat)),
      (v ∈ (vals.foldl bump acc).map Prod.fst ↔ v ∈ acc.map Prod.fst ∨ v ∈ vals) := by
  intro vals
  induction vals with
  | nil => intro acc; simp
  | cons w vals ih =>
    intro acc
    rw [List.foldl_cons, ih, bump_keys_mem]
    simp only [List.mem_cons]
    tauto

/-- The fold preserves key distinctness. -/
theorem foldl_bump_nodup :
    ∀ (vals : List String) (acc : List (String × Nat)),
      (acc.map Prod.fst).Nodup → ((vals.foldl bump acc).map Prod.fst).Nodup := by
  intro vals
  induction vals with
  | nil => intro acc h; exact h
  | cons w vals ih =>
    intro acc h
    exact ih _ (bump_keys_nodup w acc h)

/-- In an association list with distinct keys, membership of a pair is the
 same as a successful lookup. -/
theorem mem_iff_lookup_nodup {β : Type} [DecidableEq β] (v : String) (n : β) :
    ∀ l : List (String × β),
      (l.map Prod.fst).Nodup → ((v, n) ∈ l ↔ l.lookup v = some n) := by
  intro l
  induction l with
  | nil => intro _; simp [List.lookup]
  | cons e rest ih =>
    intro h
    rcases List.nodup_cons.mp h with ⟨he, hrest⟩
    by_cases hv : v = e.1
    · subst hv
      simp only [List.lookup, beq_self_eq_true, List.mem_cons]
      constructor
      · rintro (h' | h')
        · rw [← h']
        · exact absurd (List.mem_map_of_mem Prod.fst h') he
      · intro h'
        left
        cases e
        simp at h' ⊢
        exact h'.symm
    · simp only [List.lookup, beq_false_of_ne hv, List.mem_cons, ih hrest]
      constructor
      · rintro (h' | h')
        · exact absurd (congrArg Prod.fst h') hv
        · exact h'
      · exact Or.inr

/-- A lookup misses exactly the absent keys. -/
theorem lookup_eq_none_iff {β : Type} (v : String) :
    ∀ l : List (String × β), (l.lookup v = none ↔ v ∉ l.map Prod.fst) := by
  intro l
  induction l with
  | nil => simp [List.lookup]
  | cons e rest ih =>
    by_cases hv : v = e.1
    · subst hv; simp [List.lookup]
    · simp [List.lookup, beq_false_of_ne hv, ih, hv]

/-- Totality of the lexicographic comparison. -/
theorem lexLeb_total : ∀ as bs, lexLeb as bs = true ∨ lexLeb bs as = true := by
  intro as
  induction as with
  | nil => intro bs; left; rfl
  | cons a as ih =>
    intro bs
    cases bs with
    | nil => right; rfl
    | cons b bs =>
      by_cases hab : a = b
      · subst hab
        simpa [lexLeb] using ih bs
      · rcases Ne.lt_or_lt hab with h | h
        · left; simp [lexLeb, hab, h]
        · right; simp [lexLeb, Ne.symm hab, h, not_lt_of_gt h]

/-- Transitivity of the lexicographic comparison. -/
theorem lexLeb_trans :
    ∀ as bs cs, lexLeb as bs = true → lexLeb bs cs = true → lexLeb as cs = true := by
  intro as
  induction as with
  | nil => intro bs cs _ _; rfl
  | cons a as ih =>
    intro bs cs h1 h2
    cases bs with
    | nil => simp [lexLeb] at h1
    | cons b bs =>
      cases cs with
      | nil => simp [lexLeb] at h2
      | cons c cs =>
        by_cases hab : a = b
        · subst hab
          by_cases hbc : a = c
          · subst hbc
            simp only [lexLeb, if_pos rfl] at h1 h2 ⊢
            exact ih bs cs h1 h2
          · simp only [lexLeb, if_pos rfl] at h1
            simp only [lexLeb, if_neg hbc] at h2 ⊢
            exact h2
        · simp only [lexLeb, if_neg hab, decide_eq_true_eq] at h1
          by_cases hbc : b = c
          · subst hbc
            simp only [lexLeb, if_neg hab, decide_eq_true_eq]
            exact h1
          · simp only [lexLeb, if_neg hbc, decide_eq_true_eq] at h2
            have hac : a < c := lt_trans h1 h2
            simp only [lexLeb, if_neg (ne_of_lt hac), decide_eq_true_eq]
            exact hac

/-- The comparator order is total. -/
theorem statsLe_total : ∀ a b : String × Nat, statsLe a b ∨ statsLe b a := by
  intro a b
  by_cases hab : a = b
  · left; exact Or.inl hab
  rcases Nat.lt_trichotomy a.2 b.2 with h | h | h
  · right; right; left; exact h
  · by_cases ha : a.1 = blankToken
    · by_cases hb : b.1 = blankToken
      · exact absurd (Prod.ext (ha.trans hb.symm) h) hab
      · right; right; right; exact ⟨h.symm, hb, Or.inl ha⟩
    · by_cases hb : b.1 = blankToken
      · left; right; right; exact ⟨h, ha, Or.inl hb⟩
      · rcases lexLeb_total a.1.data b.1.data with hl | hl
        · left; right; right; exact ⟨h, ha, Or.inr hl⟩
        · right; right; right; exact ⟨h.symm, hb, Or.inr hl⟩
  · left; right; left; exact h

/-- The comparator order is transitive. -/
theorem statsLe_trans :
    ∀ a b c : String × Nat, statsLe a b → statsLe b c → statsLe a c := by
  intro a b c hab hbc
  rcases hab with h | h | ⟨h2, hna, hd⟩
  · exact h ▸ hbc
  · rcases hbc with h' | h' | ⟨h2', _, _⟩
    · right; left; exact h' ▸ h
    · right; left; exact lt_trans h' h
    · right; left; exact h2' ▸ h
  · rcases hbc with h' | h' | ⟨h2', hnb, hd'⟩
    · right; right; exact h' ▸ ⟨h2, hna, hd⟩
    · right; left; exact h2 ▸ h'
    · rcases hd with hb | hl
      · exact absurd hb hnb
      · rcases hd' with hc | hl'
        · right; right; exact ⟨h2.trans h2', hna, Or.inl hc⟩
        · right; right
          exact ⟨h2.trans h2', hna, Or.inr (lexLeb_trans _ _ _ hl hl')⟩

/-- C7 (corrected): for every table and column the filter-menu statistics
 map each normalised value that occurs to its occurrence count over the
 full pre-filter dataset (distinct keys, membership exactly for the values
 of positive count), and the list is sorted by the comparator order
 `statsLe`: descending count, ties broken lexicographically with the blank
 sentinel last among equal counts.  (The original claim's "blank sentinel
 always last" holds only among equal counts: see the counterexample.) -/
theorem getUniqueStats_spec (data : List GRow) (col : String) :
    ((getUniqueStats data col).map Prod.fst).Nodup ∧
      (∀ v n, (v, n) ∈ getUniqueStats data col ↔
        (0 < n ∧ (data.filter fun r => normCol col r = v).length = n)) ∧
      (getUniqueStats data col).Pairwise statsLe := by
  haveI : IsTotal (String × Nat) statsLe := ⟨statsLe_total⟩
  haveI : IsTrans (String × Nat) statsLe := ⟨fun a b c => statsLe_trans a b c⟩
  have hperm : (getUniqueStats data col).Perm (columnCounts data col) :=
    List.perm_insertionSort statsLe _
  have hnodupCC : ((columnCounts data col).map Prod.fst).Nodup :=
    foldl_bump_nodup _ [] (by simp)
  refine ⟨?_, ?_, ?_⟩
  · exact ((hperm.map Prod.fst).nodup_iff).mpr hnodupCC
  · intro v n
    have hcount : lkD (columnCounts data col) v = (data.map (normCol col)).count v := by
      simpa [lkD, List.lookup] using foldl_bump_lkD v (data.map (normCol col)) []
    have hkeys : v ∈ (columnCounts data col).map Prod.fst ↔ v ∈ data.map (normCol col) := by
      simpa using foldl_bump_keys v (data.map (normCol col)) []
    have hflen : (data.map (normCol col)).count v =
        (data.filter fun r => normCol col r = v).length := by
      rw [List.count_eq_countP, ← List.countP_eq_length_filter]
      rw [List.countP_map]
      apply List.countP_congr
      intro r _
      by_cases h : normCol col r = v
      · simp [Function.comp, h]
      · simp [Function.comp, h, beq_false_of_ne h]
    constructor
    · intro hmem
      have hmem' : (v, n) ∈ columnCounts data col := hperm.mem_iff.mp hmem
      have hlk : (columnCounts data col).lookup v = some n :=
        (mem_iff_lookup_nodup v n _ hnodupCC).mp hmem'
      have hn : (data.map (normCol col)).count v = n := by
        have : lkD (columnCounts data col) v = n := by simp [lkD, hlk]
        rwa [hcount] at this
      have hv : v ∈ data.map (normCol col) :=
        hkeys.mp (List.mem_map_of_mem Prod.fst hmem')
      have hpos : 0 < n := hn ▸ List.count_pos_iff.mpr hv
      exact ⟨hpos, by rw [← hflen, hn]⟩
    · rintro ⟨hpos, hlen⟩
      have hn : (data.map (normCol col)).count v = n := by rw [hflen, hlen]
      have hv : v ∈ data.map (normCol col) :=
        List.count_pos_iff.mp (by omega)
      have hkey : v ∈ (columnCounts data col).map Prod.fst := hkeys.mpr hv
      have hne : (columnCounts data col).lookup v ≠ none := by
        intro hcon
        exact (lookup_eq_none_iff v _).mp hcon hkey
      obtain ⟨m, hm⟩ := Option.ne_none_iff_exists'.mp hne
      have : m = n := by
        have : lkD (columnCounts data col) v = m := by simp [lkD, hm]
        rw [hcount, hn] at this
        exact this.symm
      subst this
      exact hperm.mem_iff.mpr ((mem_iff_lookup_nodup v m _ hnodupCC).mpr hm)
  · exact List.sorted_insertionSort statsLe _

/-- C7 counterexample: when the blank sentinel has the strictly highest
 count it is sorted first, not last — refuting "blank sentinel always
 last" as stated.  Two blank cells and one "a" cell produce the key order
 `[blankToken, "a"]`. -/
theorem getUniqueStats_blank_first_counterexample :
    (getUniqueStats [fun _ => none, fun _ => some " ", fun _ => some "a"] "c").map
        Prod.fst = [blankToken, "a"] ∧ blankToken ≠ "a" :=
  ⟨by decide, by decide⟩

/-- The dedup loop partitions the batch: admitted plus rejected equals the
 batch size. -/
theorem dedupGo_length :
    ∀ (ps : List Profile) (ids : List String),
      (dedupGo ids ps).1.length + (dedupGo ids ps).2 = ps.length := by
  intro ps
  induction ps with
  | nil => intro ids; simp [dedupGo]
  | cons p ps ih =>
    intro ids
    by_cases h : profileKey p ≠ "" ∧ ids.contains (profileKey p)
    · simp only [dedupGo, if_pos h, List.length_cons]
      have := ih ids
      omega
    · simp only [dedupGo, if_neg h, List.length_cons]
      have := ih (if profileKey p ≠ "" then profileKey p :: ids else ids)
      omega

/-- One-step unfolding of the dedup loop. -/
theorem dedupGo_cons (ids : List String) (q : Profile) (ps : List Profile) :
    dedupGo ids (q :: ps) =
      if profileKey q ≠ "" ∧ ids.contains (profileKey q) then
        ((dedupGo ids ps).1, (dedupGo ids ps).2 + 1)
      else
        (mkRow q ::
            (dedupGo (if profileKey q ≠ "" then profileKey q :: ids else ids) ps).1,
          (dedupGo (if profileKey q ≠ "" then profileKey q :: ids else ids) ps).2) := by
  rw [dedupGo]

/-- One-step unfolding of the seen-set recursion. -/
theorem dedupState_cons (ids : List String) (q : Profile) (ps : List Profile) :
    dedupState ids (q :: ps) =
      if profileKey q ≠ "" ∧ ids.contains (profileKey q) then dedupState ids ps
      else dedupState (if profileKey q ≠ "" then profileKey q :: ids else ids) ps := by
  rw [dedupState]

/-- Processing one more record: the record is rejected exactly when its
 non-empty trimmed key is already in the seen-set reached after the prefix,
 otherwise it is appended to the admitted rows. -/
theorem dedupGo_snoc (p : Profile) :
    ∀ (ps : List Profile) (ids : List String),
      dedupGo ids (ps ++ [p]) =
        if profileKey p ≠ "" ∧ (dedupState ids ps).contains (profileKey p) then
          ((dedupGo ids ps).1, (dedupGo ids ps).2 + 1)
        else ((dedupGo ids ps).1 ++ [mkRow p], (dedupGo ids ps).2) := by
  intro ps
  induction ps with
  | nil =>
    intro ids
    by_cases h : profileKey p ≠ "" ∧ ids.contains (profileKey p)
    · simp [dedupGo, dedupState, h]
    · simp [dedupGo, dedupState, h]
  | cons q ps ih =>
    intro ids
    rw [List.cons_append, dedupGo_cons, dedupGo_cons ids q ps, dedupState_cons]
    by_cases hq : profileKey q ≠ "" ∧ ids.contains (profileKey q)
    · simp only [if_pos hq, ih ids]
      by_cases hp : profileKey p ≠ "" ∧ (dedupState ids ps).contains (profileKey p)
      · simp only [if_pos hp]
      · simp only [if_neg hp]
    · simp only [if_neg hq,
        ih (if profileKey q ≠ "" then profileKey q :: ids else ids)]
      by_cases hp : profileKey p ≠ "" ∧
          (dedupState (if profileKey q ≠ "" then profileKey q :: ids else ids)
            ps).contains (profileKey p)
      · simp only [if_pos hp]
      · simp only [if_neg hp, List.cons_append]

/-- A non-empty key is in the seen-set after a prefix exactly when it was
 seeded or belongs to a record admitted from that prefix. -/
theorem dedupState_mem (k : String) (hk : k ≠ "") :
    ∀ (ps : List Profile) (ids : List String),
      (k ∈ dedupState ids ps ↔ k ∈ ids ∨ k ∈ (dedupGo ids ps).1.map rowKey) := by
  intro ps
  induction ps with
  | nil => intro ids; simp [dedupGo, dedupState]
  | cons q ps ih =>
    intro ids
    by_cases hq : profileKey q ≠ "" ∧ ids.contains (profileKey q)
    · simp only [dedupState, dedupGo, if_pos hq]
      exact ih ids
    · simp only [dedupState, dedupGo, if_neg hq, List.map_cons, List.mem_cons]
      rw [ih (if profileKey q ≠ "" then profileKey q :: ids else ids)]
      have hrk : rowKey (mkRow q) = profileKey q := rfl
      rw [hrk]
      by_cases hq0 : profileKey q ≠ ""
      · simp only [if_pos hq0, List.mem_cons]
        tauto
      · simp only [if_neg hq0]
        push_neg at hq0
        constructor
        · intro h
          tauto
        · rintro (h | h | h)
          · exact Or.inl h
          · exact absurd (h.trans hq0) hk
          · exact Or.inr h

/-- C2 (confirmed): during the import of an extracted batch the admitted
 count plus the rejected-duplicate count equals the batch size, and the
 `i`-th record is rejected (the duplicate counter steps) exactly when its
 whitespace-trimmed key is non-empty and equals the trimmed key of a row
 already in the table or of a record admitted from the earlier part of the
 same batch (CleaningPanel.tsx `handleInitialCleaning`). -/
theorem handleInitialCleaning_dedup_spec (table : List CRow) (ps : List Profile) :
    ((handleInitialCleaning table ps).1.length + (handleInitialCleaning table ps).2 =
        ps.length) ∧
      (∀ i (hi : i < ps.length),
        ((handleInitialCleaning table (ps.take (i + 1))).2 =
            (handleInitialCleaning table (ps.take i)).2 + 1 ↔
          (profileKey (ps.get ⟨i, hi⟩) ≠ "" ∧
            (profileKey (ps.get ⟨i, hi⟩) ∈ table.map rowKey ∨
              profileKey (ps.get ⟨i, hi⟩) ∈
                (handleInitialCleaning table (ps.take i)).1.map rowKey)))) := by
  constructor
  · exact dedupGo_length ps (table.map rowKey)
  · intro i hi
    have htake : ps.take (i + 1) = ps.take i ++ [ps.get ⟨i, hi⟩] := by
      simpa only [List.concat_eq_append, List.get_eq_getElem] using
        (List.take_concat_get ps i hi).symm
    unfold handleInitialCleaning
    rw [htake, dedupGo_snoc]
    set k := profileKey (ps.get ⟨i, hi⟩) with hk
    by_cases hcond : k ≠ "" ∧ (dedupState (table.map rowKey) (ps.take i)).contains k
    · rw [if_pos hcond]
      simp only [true_iff]
      rcases hcond with ⟨hne, hmem⟩
      refine ⟨hne, ?_⟩
      exact (dedupState_mem k hne (ps.take i) (table.map rowKey)).mp
        (List.mem_of_elem_eq_true hmem)
    · rw [if_neg hcond]
      constructor
      · intro h
        exact absurd h (by omega)
      · rintro ⟨hne, hmem⟩
        exact (hcond ⟨hne, List.elem_eq_true_of_mem
          ((dedupState_mem k hne (ps.take i) (table.map rowKey)).mpr hmem)⟩).elim

/-- Witness for C2: a batch with a table duplicate, a fresh record, an
 intra-batch duplicate (rejected at index 2) and an empty-key record. -/
theorem handleInitialCleaning_dedup_spec_witness :
    (2 < c2Batch.length) ∧
      ((handleInitialCleaning c2Table (c2Batch.take (2 + 1))).2 =
          (handleInitialCleaning c2Table (c2Batch.take 2)).2 + 1 ↔
        (profileKey (c2Batch.get ⟨2, by decide⟩) ≠ "" ∧
          (profileKey (c2Batch.get ⟨2, by decide⟩) ∈ c2Table.map rowKey ∨
            profileKey (c2Batch.get ⟨2, by decide⟩) ∈
              (handleInitialCleaning c2Table (c2Batch.take 2)).1.map rowKey))) :=
  ⟨by decide, (handleInitialCleaning_dedup_spec c2Table c2Batch).2 2 (by decide)⟩

/-- C8 (confirmed): a cell edit addressed by internal row id resets the
 row's verification state to unverified exactly when the edited row is the
 addressed one and the column is significant (用户名 or 简介); any other
 row, or an edit to a non-significant column, keeps its state
 (App.tsx `handleCellEdit`). -/
theorem handleCellEdit_status (rows : List VRow) (rowId : Nat) (column value : String)
    (i : Nat) (r : VRow) (hr : rows[i]? = some r) :
    ((handleCellEdit rows rowId column value)[i]?).map VRow.checkStatus =
      some
        (if r._internal_id = rowId ∧ (column = "用户名" ∨ column = "简介") then
          VStatus.unverified
        else r.checkStatus) := by
  unfold handleCellEdit
  rw [List.getElem?_map, hr, Option.map_some', Option.map_some']
  by_cases hid : r._internal_id = rowId
  · by_cases hsig : isSignificantColumn column
    · rw [if_pos hid, if_pos hsig, if_pos ⟨hid, hsig⟩]
    · rw [if_pos hid, if_neg hsig, if_neg (fun h => hsig h.2)]
  · rw [if_neg hid, if_neg (fun h => hid h.1)]

/-- Witness for C8: editing the significant 用户名 column of a verified row
 resets it to unverified. -/
theorem handleCellEdit_status_witness :
    (([⟨1, VStatus.verified, fun _ => ""⟩] : List VRow)[0]? =
        some ⟨1, VStatus.verified, fun _ => ""⟩) ∧
      ((handleCellEdit [⟨1, VStatus.verified, fun _ => ""⟩] 1 "用户名" "x")[0]?).map
          VRow.checkStatus =
        some
          (if (⟨1, VStatus.verified, fun _ => ""⟩ : VRow)._internal_id = 1 ∧
              ("用户名" = "用户名" ∨ "用户名" = "简介") then
            VStatus.unverified
          else (⟨1, VStatus.verified, fun _ => ""⟩ : VRow).checkStatus) :=
  ⟨rfl, handleCellEdit_status [⟨1, VStatus.verified, fun _ => ""⟩] 1 "用户名" "x" 0
    ⟨1, VStatus.verified, fun _ => ""⟩ rfl⟩

/-- Mapping over a filtered list is a `filterMap`. -/
theorem map_filter_eq_filterMap {α β : Type} (p : α → Bool) (g : α → β) (l : List α) :
    (l.filter p).map g = l.filterMap fun a => if p a then some (g a) else none := by
  induction l with
  | nil => rfl
  | cons a l ih =>
    by_cases h : p a
    · simp [List.filter_cons, List.filterMap_cons, h, ih]
    · simp [List.filter_cons, List.filterMap_cons, h, ih]

/-- C3 (corrected): one relevance-filter pass, when every returned id
 belongs to the checked batch (the currently unverified rows) and internal
 ids are distinct, deletes exactly the listed rows, marks the remaining
 batch rows verified, and leaves the already-verified rows untouched - the
 final table is the claim-worded `filterMap` of the original one.  (Without
 the batch restriction the code also deletes a verified row whose id
 appears in the list: see the counterexample.) -/
theorem handleRelevanceCleaning_spec (rows : List VRow) (ids : List Nat)
    (hnd : (rows.map VRow._internal_id).Nodup)
    (hsub : ∀ id ∈ ids, ∃ r ∈ rows,
      r.checkStatus ≠ VStatus.verified ∧ r._internal_id = id) :
    handleRelevanceCleaning rows ids =
      rows.filterMap fun r =>
        if r._internal_id ∈ ids then none
        else if r.checkStatus = VStatus.verified then some r
        else some { r with checkStatus := VStatus.verified } := by
  simp only [handleRelevanceCleaning, handleRemoveRows, handleUpdateStatus]
  split
  case isTrue hempty =>
    rw [List.isEmpty_iff] at hempty
    have hall : ∀ r ∈ rows, r.checkStatus = VStatus.verified := by
      intro r hr
      by_contra hv
      have hmem : r ∈ rows.filter fun r => r.checkStatus ≠ VStatus.verified :=
        List.mem_filter.mpr ⟨hr, by simpa using hv⟩
      rw [hempty] at hmem
      exact List.not_mem_nil r hmem
    have hcongr : (rows.filterMap fun r =>
        if r._internal_id ∈ ids then none
        else if r.checkStatus = VStatus.verified then some r
        else some { r with checkStatus := VStatus.verified }) = rows.filterMap some := by
      apply List.filterMap_congr
      intro r hr
      have hid : r._internal_id ∉ ids := by
        intro hmem
        obtain ⟨r', hr', hst, _⟩ := hsub _ hmem
        exact hst (hall r' hr')
      rw [if_neg hid, if_pos (hall r hr)]
    rw [hcongr, List.filterMap_some]
  case isFalse hempty =>
    rw [map_filter_eq_filterMap]
    apply List.filterMap_congr
    intro r hr
    by_cases hin : r._internal_id ∈ ids
    · rw [if_neg (by simpa using hin), if_pos hin]
    · rw [if_pos (by simpa using hin), if_neg hin]
      by_cases hv : r.checkStatus = VStatus.verified
      · rw [if_pos hv]
        rw [if_neg ?hns]
        case hns =>
          intro hcon
          obtain ⟨r', hr', hid⟩ :=
            List.exists_of_mem_map (List.mem_of_elem_eq_true hcon)
          rcases List.mem_filter.mp hr' with ⟨hr'2, _⟩
          rcases List.mem_filter.mp hr'2 with ⟨hr'rows, hr'st⟩
          have : r' = r := List.inj_on_of_nodup_map hnd hr'rows hr hid
          subst this
          simp [hv] at hr'st
      · rw [if_neg hv]
        rw [if_pos ?hs]
        case hs =>
          apply List.elem_eq_true_of_mem
          apply List.mem_map_of_mem VRow._internal_id
          apply List.mem_filter.mpr
          refine ⟨List.mem_filter.mpr ⟨hr, by simp [hv]⟩, ?_⟩
          simpa using hin

/-- Witness for C3 at a three-row table: row 3 (unverified) is removed,
 row 1 (unverified) becomes verified, row 2 (verified) is untouched. -/
theorem handleRelevanceCleaning_spec_witness :
    (([⟨1, VStatus.unverified, fun _ => ""⟩, ⟨2, VStatus.verified, fun _ => ""⟩,
        ⟨3, VStatus.unverified, fun _ => ""⟩] : List VRow).map
          VRow._internal_id).Nodup ∧
      (∀ id ∈ [3], ∃ r ∈ ([⟨1, VStatus.unverified, fun _ => ""⟩,
          ⟨2, VStatus.verified, fun _ => ""⟩,
          ⟨3, VStatus.unverified, fun _ => ""⟩] : List VRow),
        r.checkStatus ≠ VStatus.verified ∧ r._internal_id = id) ∧
      handleRelevanceCleaning
          [⟨1, VStatus.unverified, fun _ => ""⟩, ⟨2, VStatus.verified, fun _ => ""⟩,
            ⟨3, VStatus.unverified, fun _ => ""⟩] [3] =
        ([⟨1, VStatus.unverified, fun _ => ""⟩, ⟨2, VStatus.verified, fun _ => ""⟩,
            ⟨3, VStatus.unverified, fun _ => ""⟩] : List VRow).filterMap
          fun r =>
            if r._internal_id ∈ [3] then none
            else if r.checkStatus = VStatus.verified then some r
            else some { r with checkStatus := VStatus.verified } :=
  ⟨by decide, by decide,
    handleRelevanceCleaning_spec _ _ (by decide) (by decide)⟩

/-- C3 counterexample: with one verified and one unverified row the batch
 is non-empty, so the pass runs; a removal list naming the verified
 (not-in-batch) row deletes it - the result keeps only row 2 - although the
 claim says rows outside the checked batch are neither deleted nor
 modified. -/
theorem handleRelevanceCleaning_counterexample :
    handleRelevanceCleaning
        [⟨1, VStatus.verified, fun _ => ""⟩, ⟨2, VStatus.unverified, fun _ => ""⟩]
        [1] =
      [⟨2, VStatus.verified, fun _ => ""⟩] ∧
      (⟨1, VStatus.verified, fun _ => ""⟩ : VRow).checkStatus = VStatus.verified ∧
      (1 : Nat) ≠ 2 :=
  ⟨rfl, rfl, by decide⟩

/-- C6 (confirmed): the JSON-recovery routine tries, in order, parsing
 as-is, then parsing the fence-stripped and brace-sliced text, and on total
 failure throws an error carrying the original raw text; in particular a
 schema-conforming object wrapped in json fences behind conversational
 prose is recovered (openRouterService.ts `safeJsonParse`). -/
theorem safeJsonParse_recovery :
    (∀ raw : String,
      (∀ v, jsonParse raw = some v → safeJsonParse raw = .ok v) ∧
      (jsonParse raw = none → ∀ v, jsonParse (recoverText raw) = some v →
        safeJsonParse raw = .ok v) ∧
      (jsonParse raw = none → jsonParse (recoverText raw) = none →
        safeJsonParse raw = .error ⟨"JSON Parse Failed", some raw⟩)) ∧
    safeJsonParse "Here is the result:\n```json\n\x7b\"profiles\": []\x7d\n```" =
      .ok (.jobj [("profiles", .jarr [])]) := by
  constructor
  · intro raw
    refine ⟨?_, ?_, ?_⟩
    · intro v hv
      unfold safeJsonParse
      rw [hv]
    · intro h1 v h2
      unfold safeJsonParse
      rw [h1, h2]
    · intro h1 h2
      unfold safeJsonParse
      rw [h1, h2]
  · rfl

/-- Witness for C6: the as-is branch succeeds on plain valid JSON. -/
theorem safeJsonParse_recovery_witness :
    jsonParse "[]" = some (.jarr []) ∧ safeJsonParse "[]" = .ok (.jarr []) :=
  ⟨rfl, (safeJsonParse_recovery.1 "[]").1 (JVal.jarr []) rfl⟩

/-- C10 (confirmed): on an HTTP-success response whose content string parses
 (directly or after the markdown-stripping recovery) to a JSON value that is
 not an object carrying a `profiles` array, `extractProfilesFromText`
 resolves with the empty list instead of raising a parse or schema error. -/
theorem extract_profiles_missing_array (s : String) (v : JVal)
    (hparse : safeJsonParse s = .ok v) (hshape : hasProfilesArray v = false) :
    processExtractContent s = .ok [] := by
  have hs : s ≠ "" := by
    intro h
    subst h
    have hempty : safeJsonParse "" = .error ⟨"JSON Parse Failed", some ""⟩ := rfl
    rw [hempty] at hparse
    exact Except.noConfusion hparse
  have hpro : profilesOf v = [] := by
    cases v with
    | jnull => rfl
    | jbool b => rfl
    | jnum n => rfl
    | jstr s => rfl
    | jarr a => rfl
    | jobj fs =>
      cases hl : jsonLookup fs "profiles" with
      | none => simp [profilesOf, hl]
      | some w =>
        cases w with
        | jnull => simp [profilesOf, hl]
        | jbool b => simp [profilesOf, hl]
        | jnum n => simp [profilesOf, hl]
        | jstr s => simp [profilesOf, hl]
        | jobj fs2 => simp [profilesOf, hl]
        | jarr a => simp [hasProfilesArray, hl] at hshape
  unfold processExtractContent
  rw [if_neg hs, hparse]
  simp [hpro]

/-- Witness for C10: an HTTP-success content string holding a bare JSON
 array (not an object with a `profiles` field) yields the empty list. -/
theorem extract_profiles_missing_array_witness :
    safeJsonParse "[]" = .ok (.jarr []) ∧ hasProfilesArray (.jarr []) = false ∧
      processExtractContent "[]" = .ok [] :=
  ⟨rfl, rfl, extract_profiles_missing_array "[]" (.jarr []) rfl rfl⟩

/-- Under adequate fuel, a window whose end reaches the last line is the
 single final chunk. -/
theorem chunksGo_base (C O : Nat) (lines : List String) (fuel start : Nat)
    (hbase : lines.length ≤ start + C) :
    chunksGo C O lines start (fuel + 1) = [(lines.drop start).take C] := by
  rw [chunksGo, if_pos hbase]

/-- Length of the chunk list from an arbitrary window start, in closed
 form. -/
theorem chunksGo_length_closed (C O : Nat) (lines : List String) (h : O < C) :
    ∀ (fuel start : Nat), lines.length ≤ start + C + fuel * (C - O) →
      start + O < lines.length →
      (chunksGo C O lines start (fuel + 1)).length =
        (lines.length - start - O + (C - O) - 1) / (C - O) := by
  intro fuel
  induction fuel with
  | zero =>
    intro start hf hlt
    rw [chunksGo_base C O lines 0 start (by omega)]
    have hd : 0 < C - O := by omega
    have h1 : 1 * (C - O) ≤ lines.length - start - O + (C - O) - 1 := by omega
    have h2 : lines.length - start - O + (C - O) - 1 < 2 * (C - O) := by omega
    simpa using (Nat.div_eq_of_lt_le h1 h2).symm
  | succ fuel ih =>
    intro start hf hlt
    by_cases hbase : lines.length ≤ start + C
    · rw [chunksGo_base C O lines (fuel + 1) start hbase]
      have h1 : 1 * (C - O) ≤ lines.length - start - O + (C - O) - 1 := by omega
      have h2 : lines.length - start - O + (C - O) - 1 < 2 * (C - O) := by omega
      simpa using (Nat.div_eq_of_lt_le h1 h2).symm
    · rw [chunksGo, if_neg hbase]
      have hmul : (fuel + 1) * (C - O) = fuel * (C - O) + (C - O) := Nat.succ_mul ..
      have hrec := ih (start + (C - O)) (by omega) (by omega)
      rw [List.length_cons, hrec]
      have hx : lines.length - start - O + (C - O) - 1 =
          (lines.length - (start + (C - O)) - O + (C - O) - 1) + (C - O) := by omega
      rw [hx, Nat.add_div_right _ (by omega : 0 < C - O)]

/-- The `i`-th chunk of the list starting at `start` is the window starting
 `i` strides later. -/
theorem chunksGo_get (C O : Nat) (lines : List String) (h : O < C) :
    ∀ (fuel start i : Nat), lines.length ≤ start + C + fuel * (C - O) →
      i < (chunksGo C O lines start (fuel + 1)).length →
      (chunksGo C O lines start (fuel + 1))[i]? =
        some ((lines.drop (start + i * (C - O))).take C) := by
  intro fuel
  induction fuel with
  | zero =>
    intro start i hf hi
    rw [chunksGo_base C O lines 0 start (by omega)] at hi ⊢
    have hi0 : i = 0 := by simp at hi; omega
    subst hi0
    simp
  | succ fuel ih =>
    intro start i hf hi
    by_cases hbase : lines.length ≤ start + C
    · rw [chunksGo_base C O lines (fuel + 1) start hbase] at hi ⊢
      have hi0 : i = 0 := by simp at hi; omega
      subst hi0
      simp
    · rw [chunksGo, if_neg hbase] at hi ⊢
      have hmul : (fuel + 1) * (C - O) = fuel * (C - O) + (C - O) := Nat.succ_mul ..
      cases i with
      | zero => simp
      | succ j =>
        rw [List.getElem?_cons_succ]
        rw [List.length_cons] at hi
        have hrec := ih (start + (C - O)) j (by omega) (by omega)
        rw [hrec]
        have harith : start + (C - O) + j * (C - O) = start + (j + 1) * (C - O) := by
          rw [Nat.add_mul, Nat.one_mul]
          omega
        rw [harith]

/-- Every chunk except the last is a full window: its end is strictly
 before the last line. -/
theorem chunksGo_full (C O : Nat) (lines : List String) (h : O < C) :
    ∀ (fuel start i : Nat), lines.length ≤ start + C + fuel * (C - O) →
      i + 1 < (chunksGo C O lines start (fuel + 1)).length →
      start + i * (C - O) + C < lines.length := by
  intro fuel
  induction fuel with
  | zero =>
    intro start i hf hi
    rw [chunksGo_base C O lines 0 start (by omega)] at hi
    simp at hi
  | succ fuel ih =>
    intro start i hf hi
    by_cases hbase : lines.length ≤ start + C
    · rw [chunksGo_base C O lines (fuel + 1) start hbase] at hi
      simp at hi
    · rw [chunksGo, if_neg hbase, List.length_cons] at hi
      have hmul : (fuel + 1) * (C - O) = fuel * (C - O) + (C - O) := Nat.succ_mul ..
      cases i with
      | zero => omega
      | succ j =>
        have hrec := ih (start + (C - O)) j (by omega) (by omega)
        have hadd : (j + 1) * (C - O) = j * (C - O) + (C - O) := by
          rw [Nat.add_mul, Nat.one_mul]
        omega

/-- Fuel adequacy of the chunker entry point. -/
theorem chunkText_fuel_ok (C O : Nat) (lines : List String) (h : O < C) :
    lines.length ≤ 0 + C + lines.length * (C - O) := by
  have := Nat.le_mul_of_pos_right lines.length (by omega : 0 < C - O)
  omega

/-- C4 (corrected, spec-modelled): for a chunk size `C` and overlap
 `O < C`, chunk `i` starts at line `i × (C − O)` and spans `C` lines (or
 fewer at the tail); each boundary-adjacent pair of chunks shares exactly
 `O` lines; and the number of chunks equals `⌈(N − O) / (C − O)⌉` whenever
 `O < N`, while a non-empty text of at most `O` lines yields a single
 chunk (the original claim's count formula fails there: see the
 counterexample). -/
theorem chunkText_spec (C O : Nat) (lines : List String) (h : O < C) :
    (∀ i, i < (chunkText C O lines).length →
      (chunkText C O lines)[i]? = some ((lines.drop (i * (C - O))).take C)) ∧
    (∀ i, i + 1 < (chunkText C O lines).length →
      ∃ a b, (chunkText C O lines)[i]? = some a ∧
        (chunkText C O lines)[i + 1]? = some b ∧
        a.drop (C - O) = b.take O ∧ (a.drop (C - O)).length = O) ∧
    (O < lines.length →
      (chunkText C O lines).length =
        (lines.length - O + (C - O) - 1) / (C - O)) ∧
    (0 < lines.length → lines.length ≤ O → (chunkText C O lines).length = 1) := by
  have hfuel := chunkText_fuel_ok C O lines h
  refine ⟨?_, ?_, ?_, ?_⟩
  · intro i hi
    have := chunksGo_get C O lines h lines.length 0 i hfuel (by simpa [chunkText] using hi)
    simpa [chunkText] using this
  · intro i hi
    have hfull := chunksGo_full C O lines h lines.length 0 i hfuel
      (by simpa [chunkText] using hi)
    simp only [Nat.zero_add] at hfull
    have hga := chunksGo_get C O lines h lines.length 0 i hfuel
      (by simp only [chunkText] at hi ⊢; omega)
    have hgb := chunksGo_get C O lines h lines.length 0 (i + 1) hfuel
      (by simpa [chunkText] using hi)
    simp only [Nat.zero_add] at hga hgb
    refine ⟨(lines.drop (i * (C - O))).take C,
      (lines.drop ((i + 1) * (C - O))).take C,
      by simpa [chunkText] using hga, by simpa [chunkText] using hgb, ?_, ?_⟩
    · rw [List.drop_take, List.drop_drop, List.take_take]
      have h1 : C - (C - O) = O := Nat.sub_sub_self (le_of_lt h)
      have h2 : min O C = O := min_eq_left (le_of_lt h)
      have h3 : i * (C - O) + (C - O) = (i + 1) * (C - O) := by
        rw [Nat.add_mul, Nat.one_mul]
      rw [h1, h2, h3]
    · rw [List.drop_take, List.length_take, List.length_drop, List.length_drop]
      have h1 : C - (C - O) = O := Nat.sub_sub_self (le_of_lt h)
      rw [h1]
      omega
  · intro hON
    have := chunksGo_length_closed C O lines h lines.length 0 hfuel (by omega)
    simpa [chunkText] using this
  · intro hpos hle
    rw [chunkText, chunksGo_base C O lines lines.length 0 (by omega)]
    rfl

/-- Witness for C4: five lines with chunk size 3 and overlap 1 give
 `⌈(5−1)/2⌉ = 2` chunks. -/
theorem chunkText_spec_witness :
    ((1 : Nat) < 3) ∧ (1 < (["a", "b", "c", "d", "e"] : List String).length) ∧
      (chunkText 3 1 ["a", "b", "c", "d", "e"]).length =
        ((["a", "b", "c", "d", "e"] : List String).length - 1 + (3 - 1) - 1) / (3 - 1) :=
  ⟨by decide, by decide,
    (chunkText_spec 3 1 ["a", "b", "c", "d", "e"] (by decide)).2.2.1 (by decide)⟩

/-- C4 counterexample: a one-line text with chunk size 10 and overlap 5 is
 split into one chunk, while the claimed count formula
 `⌈(N−O)/(C−O)⌉` evaluates to zero. -/
theorem chunkText_count_counterexample :
    (chunkText 10 5 ["a"]).length = 1 ∧
      ((["a"] : List String).length - 5 + (10 - 5) - 1) / (10 - 5) = 0 ∧ (1 : Nat) ≠ 0 :=
  ⟨rfl, rfl, by decide⟩

/-- C5 (confirmed, spec-modelled): the chunked extraction run accumulates
 exactly the successful chunks' records - the run's result is the
 concatenation of the results of the chunks whose call succeeded - and an
 inserted failing chunk never aborts the run: dropping it from the outcome
 sequence leaves the accumulated result unchanged. -/
theorem extractOverChunks_partial_success (chunkSize overlap : Nat)
    (lines : List String) (call : List String → Except ApiErr (List Profile)) :
    extractOverChunks chunkSize overlap lines call =
      (((emittedChunks chunkSize overlap lines).map call).filterMap
        chunkResultToOption).flatten ∧
    (∀ (xs ys : List (Except ApiErr (List Profile))) (e : ApiErr),
      runChunks (xs ++ .error e :: ys) = runChunks (xs ++ ys)) := by
  constructor
  · unfold extractOverChunks
    generalize (emittedChunks chunkSize overlap lines).map call = results
    induction results with
    | nil => rfl
    | cons r rest ih =>
      cases r with
      | ok ps => simp [runChunks, chunkResultToOption, List.filterMap_cons, ih]
      | error e => simp [runChunks, chunkResultToOption, List.filterMap_cons, ih]
  · intro xs ys e
    induction xs with
    | nil => rfl
    | cons x xs ih =>
      cases x with
      | ok ps => simp [runChunks, ih]
      | error e2 => simp [runChunks, ih]

/-- Looking up after a JavaScript-object insertion. -/
theorem objInsert_lookup {α : Type} (k k' : String) (v : α) :
    ∀ m : List (String × α),
      (objInsert k v m).lookup k' = if k' = k then some v else m.lookup k' := by
  intro m
  induction m with
  | nil =>
    by_cases h : k' = k
    · subst h; simp [objInsert, List.lookup]
    · simp [objInsert, List.lookup, h, beq_false_of_ne h]
  | cons e m ih =>
    by_cases he : e.1 = k
    · by_cases h : k' = k
      · subst h; simp [objInsert, he, List.lookup]
      · simp [objInsert, he, List.lookup, h, beq_false_of_ne h,
          beq_false_of_ne (he ▸ h)]
    · by_cases h : k' = e.1
      · subst h
        have hk : e.1 ≠ k := he
        simp [objInsert, he, List.lookup, hk, beq_false_of_ne hk]
      · simp [objInsert, he, List.lookup, beq_false_of_ne h, ih]

/-- The keys after a JavaScript-object insertion. -/
theorem objInsert_keys {α : Type} (k k' : String) (v : α) :
    ∀ m : List (String × α),
      (k' ∈ (objInsert k v m).map Prod.fst ↔ k' ∈ m.map Prod.fst ∨ k' = k) := by
  intro m
  induction m with
  | nil => simp [objInsert]
  | cons e m ih =>
    by_cases he : e.1 = k
    · subst he; simp [objInsert]; tauto
    · simp only [objInsert, if_neg he, List.map_cons, List.mem_cons, ih]
      tauto

/-- Inserting a fresh key appends. -/
theorem objInsert_append {α : Type} (k : String) (v : α) :
    ∀ m : List (String × α), k ∉ m.map Prod.fst → objInsert k v m = m ++ [(k, v)] := by
  intro m
  induction m with
  | nil => intro _; rfl
  | cons e m ih =>
    intro h
    simp only [List.map_cons, List.mem_cons] at h
    push_neg at h
    simp only [objInsert, if_neg (Ne.symm h.1), List.cons_append]
    rw [ih h.2]

/-- Keys present after fanning one record's ports into the price map. -/
theorem portsFold_keys (k : String) (prices : Tier → Option PVal) :
    ∀ (ports : List String) (m0 : List (String × (Tier → Option PVal))),
      (k ∈ ((ports.foldl (fun m' port => objInsert (normKey port) prices m') m0).map
          Prod.fst) ↔
        k ∈ m0.map Prod.fst ∨ k ∈ ports.map normKey) := by
  intro ports
  induction ports with
  | nil => intro m0; simp
  | cons p ports ih =>
    intro m0
    rw [List.foldl_cons, ih, objInsert_keys]
    simp only [List.map_cons, List.mem_cons]
    tauto

/-- Keys of the accumulated price map are exactly the normalised extracted
 port codes. -/
theorem buildPriceMap_keys (k : String) :
    ∀ (api : List PortRecord) (m0 : List (String × (Tier → Option PVal))),
      (k ∈ ((api.foldl
            (fun m item =>
              item.ports.foldl (fun m' port => objInsert (normKey port) item.prices m') m)
            m0).map Prod.fst) ↔
        k ∈ m0.map Prod.fst ∨ k ∈ extractedCodes api) := by
  intro api
  induction api with
  | nil => intro m0; simp [extractedCodes]
  | cons item api ih =>
    intro m0
    rw [List.foldl_cons, ih, portsFold_keys]
    simp only [extractedCodes, List.flatMap_cons, List.mem_append]
    tauto

/-- With pairwise-distinct mapped columns, the object-insertion
 accumulation of the tier updates is the spec-worded filtered list. -/
theorem updatesCode_eq_spec (cfg : PriceCfg) (prices : Tier → Option PVal)
    (hdist : ∀ t t' : Tier, t ≠ t' → cfg.mapping t ≠ "" → cfg.mapping t' ≠ "" →
      cfg.mapping t ≠ cfg.mapping t') :
    ∀ ts : List Tier, ts.Nodup →
      ∀ u : List (String × Int),
        (∀ t ∈ ts, cfg.mapping t ≠ "" → cfg.mapping t ∉ u.map Prod.fst) →
        updatesCode cfg prices ts u = u ++ updatesSpec cfg prices ts := by
  intro ts
  induction ts with
  | nil => intro _ u _; simp [updatesCode, updatesSpec]
  | cons t ts ih =>
    intro hnd u hu
    rcases List.nodup_cons.mp hnd with ⟨htts, hndts⟩
    by_cases hm : cfg.mapping t = ""
    · rw [show updatesCode cfg prices (t :: ts) u = updatesCode cfg prices ts u by
        simp [updatesCode, hm]]
      rw [ih hndts u fun t' ht' => hu t' (List.mem_cons_of_mem t ht')]
      simp [updatesSpec, List.filterMap_cons, hm]
    · cases hc : calculatePrice prices t (cfg.rules t) with
      | none =>
        rw [show updatesCode cfg prices (t :: ts) u = updatesCode cfg prices ts u by
          simp [updatesCode, hm, hc]]
        rw [ih hndts u fun t' ht' => hu t' (List.mem_cons_of_mem t ht')]
        simp [updatesSpec, List.filterMap_cons, hm, hc]
      | some x =>
        rw [show updatesCode cfg prices (t :: ts) u =
            updatesCode cfg prices ts (objInsert (cfg.mapping t) x u) by
          simp [updatesCode, hm, hc]]
        rw [objInsert_append _ _ _ (hu t (List.mem_cons_self t ts) hm)]
        rw [ih hndts (u ++ [(cfg.mapping t, x)]) ?inv]
        · simp [updatesSpec, List.filterMap_cons, hm, hc]
        case inv =>
          intro t' ht' hm'
          simp only [List.map_append, List.mem_append]
          rintro (h | h)
          · exact hu t' (List.mem_cons_of_mem t ht') hm' h
          · simp only [List.map_cons, List.map_nil, List.mem_singleton] at h
            exact hdist t' t (fun e => htts (e ▸ ht')) hm' hm h

/-- C9 (corrected): with the five mapped price columns pairwise distinct,
 the preview list equals the claim-worded per-row `filterMap` - a preview
 entry appears exactly for rows whose present, non-empty key cell
 normalises (trim + uppercase) to a key in the extracted price map with at
 least one mapped tier producing a concrete adjusted value (`add v` adds,
 `subtract v` subtracts, `default` keeps the extracted value; unmapped,
 absent, empty or non-numeric tiers are skipped) - and a key is in the
 price map exactly when it equals some normalised extracted port code.
 (The original claim omits the presence guard on the key cell: see the
 counterexample.) -/
theorem generatePreviews_spec (apiData : List PortRecord) (cfg : PriceCfg)
    (currentData : List SheetRow)
    (hdist : ∀ t t' : Tier, t ≠ t' → cfg.mapping t ≠ "" → cfg.mapping t' ≠ "" →
      cfg.mapping t ≠ cfg.mapping t') :
    generatePreviews apiData cfg currentData =
      currentData.enum.filterMap (fun ir => specPreviewRow apiData cfg ir.1 ir.2) ∧
    (∀ key, ((buildPriceMap apiData).lookup key ≠ none ↔
      key ∈ extractedCodes apiData)) := by
  constructor
  · unfold generatePreviews
    apply List.filterMap_congr
    intro ir _
    unfold previewRow specPreviewRow
    cases hc : ir.2.cells cfg.portCol with
    | none => rfl
    | some rawPort =>
      dsimp only
      by_cases hraw : rawPort = .pstr ""
      · rw [if_pos hraw, if_pos hraw]
      · rw [if_neg hraw, if_neg hraw]
        cases hlk : (buildPriceMap apiData).lookup (normKey (pvToString rawPort)) with
        | none => rfl
        | some prices =>
          dsimp only
          have hupd : updatesCode cfg prices tierList [] =
              updatesSpec cfg prices tierList := by
            have h := updatesCode_eq_spec cfg prices hdist tierList (by decide) []
              (by simp)
            simpa using h
          rw [hupd]
  · intro key
    constructor
    · intro hne
      have hmem : key ∈ (buildPriceMap apiData).map Prod.fst := by
        by_contra hcon
        exact hne ((lookup_eq_none_iff key (buildPriceMap apiData)).mpr hcon)
      unfold buildPriceMap at hmem
      have := (buildPriceMap_keys key apiData []).mp hmem
      simpa using this
    · intro hmem hnone
      have hout : key ∉ (buildPriceMap apiData).map Prod.fst :=
        (lookup_eq_none_iff key (buildPriceMap apiData)).mp hnone
      apply hout
      unfold buildPriceMap
      exact (buildPriceMap_keys key apiData []).mpr (Or.inr hmem)

/-- Witness for C9 at a one-record, one-row match: the `" SVO "` key matches
 the extracted `"svo"` code and the mapped +45 tier proposes `40 + 2`. -/
theorem generatePreviews_spec_witness :
    (∀ t t' : Tier, t ≠ t' → w9Cfg.mapping t ≠ "" → w9Cfg.mapping t' ≠ "" →
      w9Cfg.mapping t ≠ w9Cfg.mapping t') ∧
      (generatePreviews w9Api w9Cfg [w9Row] =
        ([w9Row] : List SheetRow).enum.filterMap
          (fun ir => specPreviewRow w9Api w9Cfg ir.1 ir.2) ∧
      (∀ key, ((buildPriceMap w9Api).lookup key ≠ none ↔
        key ∈ extractedCodes w9Api))) :=
  ⟨by decide, generatePreviews_spec w9Api w9Cfg [w9Row] (by decide)⟩

/-- C9 counterexample: a row whose key cell is exactly the empty string is
 skipped by the engine even though its normalised key equals the
 (whitespace-only) extracted port code's normalised form and the mapped
 +45 tier would yield a concrete value - the claim-worded unguarded
 `filterMap` emits an entry, the code emits none. -/
theorem generatePreviews_blank_key_counterexample :
    generatePreviews c9Api c9Cfg [c9Row] = [] ∧
      ([c9Row] : List SheetRow).enum.filterMap
          (fun ir => specPreviewRowUnguarded c9Api c9Cfg ir.1 ir.2) ≠ [] :=
  ⟨rfl, by decide⟩

end AirPriceTool
